import Mathlib

/-!
Verification development for the `runeberg` package (lokal-profil/runeberg).

The definitions below are a shallow embedding of the parts of the source
relevant to the reconciliation engine:
  * `src/runeberg/page.py`       — `Page` (chapter markers, blank handling),
  * `src/runeberg/page_range.py` — `PageRange` (ordered mapping with slicing),
  * `src/runeberg/article.py`    — `Article` (clean title, uid),
  * `src/runeberg/work.py`       — `Work.load_pages` / `Work.load_articles`
    (disambiguation and reconciliation) and the error classes.

Python strings are modelled as `List Char` (a Python `str` is a sequence of
code points), Python `int` as `Int`, `collections.Counter` and
`collections.OrderedDict` as insertion-ordered association lists with the
dict update semantics (overwrite in place, append new keys at the end),
and raising as `Except Err`.

`BeautifulSoup(...).find_all('chapter')` is modelled as a literal scan for
the marker syntax `<chapter name="NAME">` that the package recognises
(matching the documented marker syntax and the package's own test data);
the names are the attribute values, read up to the closing quote.
-/

deriving instance DecidableEq for Except

/-! ## Python-style character helpers -/

/-- Whitespace characters recognised by Python's `str.strip()` /
`str.split()` (the ASCII ones; the sources only ever meet these). -/
def isPyWS (c : Char) : Bool :=
  c = ' ' || c = '\t' || c = '\n' || c = '\x0d' || c = '\x0b' || c = '\x0c'

/-- `l.dropWhile` from the right; used for Python `str.strip()`. -/
def trimWS (l : List Char) : List Char :=
  ((l.dropWhile isPyWS).reverse.dropWhile isPyWS).reverse

/-- Python `entry.split(' ')`: split at every single space, keeping empty
fields (`''.split(' ') == ['']`). -/
def splitSp : List Char → List (List Char)
  | [] => [[]]
  | c :: cs =>
    if c = ' ' then [] :: splitSp cs
    else
      match splitSp cs with
      | [] => [[c]]
      | t :: ts => (c :: t) :: ts

/-- The two components of Python `entry.partition('-')` (first and last
field); only ever used after checking `'-' in entry`. -/
def splitAtDash : List Char → List Char × List Char
  | [] => ([], [])
  | c :: cs =>
    if c = '-' then ([], cs)
    else
      let p := splitAtDash cs
      (c :: p.1, p.2)

/-- Boolean "is a pfx of" on char lists (used instead of the library
function so that all lemmas are proved here from first principles). -/
def isPfx : List Char → List Char → Bool
  | [], _ => true
  | _ :: _, [] => false
  | a :: as, b :: bs => a = b && isPfx as bs

/-- Python `s.replace(pat, rep, 1)`: replace the leftmost occurrence. -/
def replaceFirst (pat rep : List Char) : List Char → List Char
  | [] => if isPfx pat [] then rep else []
  | c :: cs =>
    if isPfx pat (c :: cs) then rep ++ (c :: cs).drop pat.length
    else c :: replaceFirst pat rep cs

/-- Whether `pat` occurs as a contiguous substring. -/
def containsSub (pat : List Char) : List Char → Bool
  | [] => isPfx pat []
  | c :: cs => isPfx pat (c :: cs) || containsSub pat cs

/-! ## Chapter markers (`page.py`) -/

/-- Everything of the opening of a chapter marker after the `<`. -/
def preTail : List Char := "chapter name=\"".data

/-- The opening of a chapter marker, `<chapter name="`. -/
def preMark : List Char := '<' :: preTail

/-- The literal text `<chapter name="NAME">` (the `base_str` of
`Page.rename_chapter`). -/
def marker (n : List Char) : List Char := preMark ++ n ++ ['"', '>']

/-- Worker for `extractChapters`, structurally recursive on a fuel
argument so that it reduces inside the kernel; every step consumes at
least one character, so `s.length` fuel always suffices (proved below in
`extractGo_fuel`). -/
def extractGo : Nat → List Char → List (List Char)
  | 0, _ => []
  | _, [] => []
  | fuel + 1, c :: cs =>
    if isPfx preMark (c :: cs) then
      let rest := (c :: cs).drop preMark.length
      let nm := rest.takeWhile (fun d => d ≠ '"')
      nm :: extractGo fuel (rest.drop (nm.length + 1))
    else extractGo fuel cs

/-- Extraction of the chapter-marker names of a page text, in appearance
order, modelling `BeautifulSoup(self.ocr).find_all('chapter')` on the
marker syntax the package recognises. -/
def extractChapters (s : List Char) : List (List Char) :=
  extractGo s.length s

/-! ## Errors (`work.py` error classes and the Python built-in errors) -/

/-- The terminal errors a load can raise.  `disambiguation` is
`DisambiguationError`, `reconciliation` is `ReconciliationError` carrying
the two formatted report lists it builds (`unclaimed_chapters`,
`no_tag_articles`), `notInList` is the `ValueError` from `list.index`,
`atLeastOne` the `ValueError('At least one index required')`,
`blankChapter` the `ValueError` of `Page.get_chapters`, `attributeNone`
the `AttributeError` from calling a method on `None`, `indexError` the
`IndexError` from `self.pages[0]` on an empty list and `missingPage` is a
model-internal impossibility (a page uid held by an article but absent
from the work's page store). -/
inductive Err where
  | disambiguation (title : String)
  | reconciliation (unclaimed : List String) (noTag : List String)
  | notInList (k : String)
  | atLeastOne
  | blankChapter (uid label : String)
  | attributeNone
  | indexError
  | missingPage (uid : String)
deriving DecidableEq

/-! ## Page (`page.py`) -/

/-- A `Page`: identifier, printed label, ocr text, tri-state proofread
status (`none` is Python `None`, the blank-page sentinel) and the
memoised `_chapters` attribute (`none` while unset). -/
structure Page where
  uid : String
  label : String
  ocr : List Char
  isProofread : Option Bool
  cache : Option (List String)
deriving DecidableEq

/-- `Page.BLANK_LABELS`. -/
def blankLabels : List String := ["blank", "(blank)"]

/-- The effective default label: `default_label or self.DEFAULT_BLANK`
(Python truthiness: `None` and `''` both fall back to `'<blank>'`). -/
def canonicalBlank (dflt : Option String) : String :=
  match dflt with
  | none => "<blank>"
  | some s => if s = "" then "<blank>" else s

/-- `Page.set_blank(default_label)`. -/
def setBlank (dflt : Option String) (p : Page) : Page :=
  if p.label ∈ blankLabels then
    { p with isProofread := none, label := canonicalBlank dflt }
  else p

/-- `Page.__init__` (uid, label, ocr, proofread), including the final
`self.set_blank()` call.  The image fields are not modelled. -/
def mkPage (uid label : String) (ocr : List Char) (proofread : Option Bool) : Page :=
  setBlank none { uid := uid, label := label, ocr := ocr,
                  isProofread := proofread, cache := none }

/-- `Page.get_chapters()`: returns the memoised list when present,
otherwise extracts the names from the text, fails on a blank name and
memoises the result.  Returns the updated page (the mutation of
`self._chapters`). -/
def getChapters (p : Page) : Except Err (List String × Page) :=
  match p.cache with
  | some l => .ok (l, p)
  | none =>
    if ((extractChapters p.ocr).map (fun n => String.mk n)).any (fun s => s = "") then
      .error (.blankChapter p.uid p.label)
    else
      .ok ((extractChapters p.ocr).map (fun n => String.mk n),
        { p with cache := some ((extractChapters p.ocr).map (fun n => String.mk n)) })

/-- `Page.rename_chapter(old_name, new_name)`: replace the first literal
occurrence of the old marker in the text.  The memoised `_chapters` list
is not touched. -/
def renameChapter (p : Page) (oldName newName : String) : Page :=
  { p with ocr := replaceFirst (marker oldName.data) (marker newName.data) p.ocr }

/-! ## PageRange (`page_range.py`) -/

/-- Generic association-list helpers with Python dict semantics. -/
def assocFind {V : Type} : List (String × V) → String → Option V
  | [], _ => none
  | (k', v') :: rest, k => if k' = k then some v' else assocFind rest k

/-- `d[k] = v`: overwrite in place, else append at the end. -/
def assocSet {V : Type} : List (String × V) → String → V → List (String × V)
  | [], k, v => [(k, v)]
  | (k', v') :: rest, k, v =>
    if k' = k then (k, v) :: rest else (k', v') :: assocSet rest k v

/-- `k in d`. -/
def assocHas {V : Type} (l : List (String × V)) (k : String) : Bool :=
  (assocFind l k).isSome

/-- The 0-based position of a key in a key list (`list.index`,
`none` when absent). -/
def keyIdx (k : String) : List String → Option Nat
  | [] => none
  | x :: xs => if x = k then some 0 else (keyIdx k xs).map (· + 1)

/-- `PageRange`: an insertion-ordered mapping page-uid → value. -/
structure PageRange (α : Type) where
  entries : List (String × α)
deriving DecidableEq

/-- The insertion-ordered keys. -/
def PageRange.keys {α : Type} (pr : PageRange α) : List String :=
  pr.entries.map Prod.fst

/-- The position of a single key, raising `ValueError` when absent
(`key_list.index(args[0])`). -/
def PageRange.index1 {α : Type} (pr : PageRange α) (k : String) : Except Err Nat :=
  match keyIdx k pr.keys with
  | some i => .ok i
  | none => .error (.notInList k)

/-- Result of `PageRange.index`: one index, or a list of indexes. -/
inductive IdxRes where
  | one (i : Nat)
  | many (is : List Nat)
deriving DecidableEq

/-- `mapM` for `Except`, matching a Python list comprehension that can
raise at the first failing element. -/
def mapExcept {α β : Type} (f : α → Except Err β) : List α → Except Err (List β)
  | [] => .ok []
  | a :: as =>
    match f a with
    | .error e => .error e
    | .ok b =>
      match mapExcept f as with
      | .error e => .error e
      | .ok bs => .ok (b :: bs)

/-- `PageRange.index(*args)`. -/
def PageRange.index {α : Type} (pr : PageRange α) (args : List String) :
    Except Err IdxRes :=
  match args with
  | [] => .error .atLeastOne
  | [k] => (pr.index1 k).map .one
  | ks => (mapExcept pr.index1 ks).map .many

/-- `PageRange.slice(start, stop)` (`islice` over the items; the `step`
argument is never passed in the sources). -/
def PageRange.slice {α : Type} (pr : PageRange α) (start stop : Nat) : PageRange α :=
  ⟨(pr.entries.drop start).take (stop - start)⟩

/-- `PageRange.get_range(first, last, inclusive)`; the body unfolds
`first_i, last_i = self.index(first, last)` into its two sequential
`list.index` calls (same results, same first error). -/
def PageRange.getRange {α : Type} (pr : PageRange α) (first last : String)
    (inclusive : Bool) : Except Err (PageRange α) :=
  match pr.index1 first with
  | .error e => .error e
  | .ok i1 =>
    match pr.index1 last with
    | .error e => .error e
    | .ok i2 => .ok (pr.slice i1 (i2 + (if inclusive then 1 else 0)))

/-- `PageRange.first()`. -/
def PageRange.firstVal {α : Type} (pr : PageRange α) : Option α :=
  pr.entries.head?.map Prod.snd

/-- Last key of a nonempty key list (`key_list[-1]`). -/
def lastOf (v : String) : List String → String
  | [] => v
  | w :: ws => lastOf w ws

/-- `PageRange.__str__` on the key list. -/
def rangeStr : List String → String
  | [] => ""
  | [u] => u
  | u :: v :: rest => u ++ "-" ++ lastOf v rest

/-! ## Article (`article.py`) -/

/-- One segment of an article's page list: a single `Page` or a
`PageRange` (Python stores object references; since the referenced pages
live in the work's page store and are mutated through it, segments here
hold the page uids and are resolved against the store). -/
inductive Entry where
  | single (uid : String)
  | range (uids : List String)
deriving DecidableEq

/-- An `Article`.  `pages` is the list built by `Work.parse_range`; a
`none` element is the Python `None` that `dict.get` yields for an unknown
page uid.  `noChapterTag` starts as Python `None`. -/
structure Article where
  title : String
  pages : List (Option Entry)
  htmlName : String
  disambig : Option Int
  noChapterTag : Option Bool
deriving DecidableEq

/-- `Article.__init__(title, pages, html_name, disambig)`. -/
def mkArticle (title : String) (pages : List (Option Entry)) (htmlName : String)
    (disambig : Option Int) : Article :=
  { title := title, pages := pages, htmlName := htmlName,
    disambig := disambig, noChapterTag := none }

/-- Tag stripping of `BeautifulSoup(self.title).get_text()`: drop every
`<...>` region. -/
def stripTagsAux : Bool → List Char → List Char
  | _, [] => []
  | true, c :: cs => if c = '>' then stripTagsAux false cs else stripTagsAux true cs
  | false, c :: cs => if c = '<' then stripTagsAux true cs else c :: stripTagsAux false cs

/-- `Article.clean_title`: markup stripped, whitespace trimmed. -/
def cleanTitle (s : String) : String :=
  String.mk (trimWS (stripTagsAux false s.data))

/-- `Article.uid`: the disambiguator is appended only when truthy
(`if self.disambig:`), so `None` and `0` both give the bare clean title. -/
def uidOf (a : Article) : String :=
  match a.disambig with
  | none => cleanTitle a.title
  | some d =>
    if d = 0 then cleanTitle a.title
    else cleanTitle a.title ++ " (" ++ toString d ++ ")"

/-- `Article.is_toc_header()`: no pages at all. -/
def isTocHeader (a : Article) : Bool := a.pages.isEmpty

/-- `Article.first_page()` resolved to a page uid: `self.pages[0]`
(raising `IndexError` on an empty list), expanding a `PageRange` to its
first page; the result is Python `None` for a `None` segment or an empty
range. -/
def firstSegPage : List (Option Entry) → Except Err (Option String)
  | [] => .error .indexError
  | none :: _ => .ok none
  | some (.single u) :: _ => .ok (some u)
  | some (.range []) :: _ => .ok none
  | some (.range (u :: _)) :: _ => .ok (some u)

/-! ## Counter (`collections.Counter` as used by `work.py`) -/

/-- A `Counter`: insertion-ordered keys with integer counts. -/
abbrev Counter := List (String × Int)

/-- `c[k]` (0 for a missing key). -/
def cget (c : Counter) (k : String) : Int :=
  match assocFind c k with
  | some v => v
  | none => 0

/-- `k in c` (key presence, whatever the count). -/
def chas (c : Counter) (k : String) : Bool := assocHas c k

/-- `c[k] = v`. -/
def cset (c : Counter) (k : String) (v : Int) : Counter := assocSet c k v

/-- `c[k] += d` (a missing key is treated as 0 and inserted). -/
def cinc (c : Counter) (k : String) (d : Int) : Counter :=
  cset c k (cget c k + d)

/-- `c.update(iterable)`: add one for each listed key, in order. -/
def cupdate (c : Counter) (ks : List String) : Counter :=
  ks.foldl (fun acc k => cinc acc k 1) c

/-- Stable descending insertion by count (`sorted(..., reverse=True)` is
stable, so equal counts keep insertion order). -/
def insertByCount (x : String × Int) : List (String × Int) → List (String × Int)
  | [] => [x]
  | y :: ys => if y.2 ≤ x.2 then x :: y :: ys else y :: insertByCount x ys

/-- `Counter.most_common()`: items sorted by count descending, ties in
insertion order. -/
def mostCommon : Counter → List (String × Int)
  | [] => []
  | x :: xs => insertByCount x (mostCommon xs)

/-- `Work.setup_disambiguation_counter(chapters)`: a `Counter` built from
the keys whose global count exceeds one (`takewhile` over
`most_common()`), which therefore start at count **1**. -/
def setupDisambiguationCounter (chapters : Counter) : Counter :=
  cupdate [] (((mostCommon chapters).takeWhile (fun kc => 1 < kc.2)).map Prod.fst)

/-! ## Work loading (`work.py`) -/

/-- The mutable state of a `Work` during `load_articles`: the page store
`self.pages`, the global chapter counter, the local disambiguation
counter and the ordered `self.articles`. -/
structure LoadState where
  pages : PageRange Page
  chapters : Counter
  disamb : Counter
  articles : List (String × Article)
deriving DecidableEq

/-- `Work.parse_range(page_range)` on the token list of
`page_range.split(' ')`: blank tokens are skipped, a token with `-`
becomes `self.pages.get_range(first, last)` (which can raise), any other
token becomes `self.pages.get(entry)` — `None` when the uid is unknown. -/
def parseRangeAux (pages : PageRange Page) :
    List (List Char) → Except Err (List (Option Entry))
  | [] => .ok []
  | tok :: rest =>
    if tok.all isPyWS then parseRangeAux pages rest
    else if tok.contains '-' then
      let fl := splitAtDash tok
      match pages.getRange (String.mk fl.1) (String.mk fl.2) true with
      | .error e => .error e
      | .ok sub =>
        match parseRangeAux pages rest with
        | .error e => .error e
        | .ok tail => .ok (some (Entry.range sub.keys) :: tail)
    else
      match parseRangeAux pages rest with
      | .error e => .error e
      | .ok tail =>
        .ok ((assocFind pages.entries (String.mk tok)).map
               (fun _ => Entry.single (String.mk tok)) :: tail)

/-- `Work.parse_range(page_range)`. -/
def parseRange (pages : PageRange Page) (expr : String) :
    Except Err (List (Option Entry)) :=
  parseRangeAux pages (splitSp expr.data)

/-- The disambiguation part of one `load_articles` iteration: when the
title is in the disambiguation counter, build the article with the
current count as the disambiguator, rename the marker on its first page
and bump the counter; otherwise build a plain article. -/
def stepDisamb (st : LoadState) (title htmlName : String)
    (pl : List (Option Entry)) : Except Err (LoadState × Article) :=
  if chas st.disamb title then
    match firstSegPage (mkArticle title pl htmlName (some (cget st.disamb title))).pages with
    | .error e => .error e
    | .ok none => .error .attributeNone
    | .ok (some u) =>
      match assocFind st.pages.entries u with
      | none => .error (.missingPage u)
      | some pg =>
        .ok ({ st with
                 pages := ⟨assocSet st.pages.entries u
                   (renameChapter pg title
                     (uidOf (mkArticle title pl htmlName (some (cget st.disamb title)))))⟩,
                 disamb := cinc st.disamb title 1 },
             mkArticle title pl htmlName (some (cget st.disamb title)))
  else .ok (st, mkArticle title pl htmlName none)

/-- The chapter-tag part of one `load_articles` iteration: skipped for
ToC headers, otherwise the raw title is looked up among the chapter
markers of the first page (memoised); absence flags the article,
presence consumes one global count. -/
def stepTag (st : LoadState) (title : String) (art : Article) :
    Except Err (LoadState × Article) :=
  if isTocHeader art then .ok (st, art)
  else
    match firstSegPage art.pages with
    | .error e => .error e
    | .ok none => .error .attributeNone
    | .ok (some u) =>
      match assocFind st.pages.entries u with
      | none => .error (.missingPage u)
      | some pg =>
        match getChapters pg with
        | .error e => .error e
        | .ok (chs, pg') =>
          if title ∈ chs then
            .ok ({ st with
                     pages := ⟨assocSet st.pages.entries u pg'⟩,
                     chapters := cinc st.chapters title (-1) }, art)
          else
            .ok ({ st with pages := ⟨assocSet st.pages.entries u pg'⟩ },
                 { art with noChapterTag := some true })

/-- One iteration of the `load_articles` loop over `Articles.lst`:
resolve the page range, fail with `DisambiguationError` when the raw
title is already a key of `self.articles`, run the disambiguation and
chapter-tag steps, and store the article under its uid. -/
def loadArticleEntry (st : LoadState) (htmlName title rangeExpr : String) :
    Except Err LoadState :=
  match parseRange st.pages rangeExpr with
  | .error e => .error e
  | .ok pl =>
    if assocHas st.articles title then .error (.disambiguation title)
    else
      match stepDisamb st title htmlName pl with
      | .error e => .error e
      | .ok (st1, a1) =>
        match stepTag st1 title a1 with
        | .error e => .error e
        | .ok (st2, a2) =>
          .ok { st2 with articles := assocSet st2.articles (uidOf a2) a2 }

/-- The `load_articles` loop over all entries of `Articles.lst`
(`(html_name, title, page_range)` triples). -/
def runEntries : LoadState → List (String × String × String) → Except Err LoadState
  | st, [] => .ok st
  | st, (h, t, r) :: rest =>
    match loadArticleEntry st h t r with
    | .error e => .error e
    | .ok st' => runEntries st' rest

/-- `'{0}: {1} time(s)'.format(key, count)`. -/
def fmtUnclaimed (kc : String × Int) : String :=
  kc.1 ++ ": " ++ toString kc.2 ++ " time(s)"

/-- `ReconciliationError.unclaimed_chapters`: every marker with a
non-zero remaining count, in `most_common()` order, formatted. -/
def unclaimedList (c : Counter) : List String :=
  ((mostCommon c).filter (fun kc => decide (kc.2 ≠ 0))).map fmtUnclaimed

/-- `str(article.pages[0])` (`pages` of a flagged article is never
empty, so the `[]` case is unreachable). -/
def firstSegStr (pages : List (Option Entry)) : String :=
  match pages with
  | [] => ""
  | none :: _ => "None"
  | some (.single u) :: _ => u
  | some (.range us) :: _ => rangeStr us

/-- `'{0}: page(s) {1}'.format(article.clean_title, article.pages[0])`. -/
def fmtNoTag (a : Article) : String :=
  cleanTitle a.title ++ ": page(s) " ++ firstSegStr a.pages

/-- `ReconciliationError.no_tag_articles`: the stored articles whose
`no_chapter_tag` is set, in storage order, formatted. -/
def noTagList (arts : List (String × Article)) : List String :=
  (arts.filter (fun p => decide (p.2.noChapterTag = some true))).map
    (fun p => fmtNoTag p.2)

/-- `any(counter != 0 for counter in chapters.values())`. -/
def chaptersNonzero (c : Counter) : Bool :=
  c.any (fun kc => decide (kc.2 ≠ 0))

/-- The state at the top of `load_articles`: the disambiguation counter
is freshly built from the global chapter counts and `self.articles`
starts empty. -/
def initState (pages : PageRange Page) (chapters : Counter) : LoadState :=
  { pages := pages, chapters := chapters,
    disamb := setupDisambiguationCounter chapters, articles := [] }

/-- `Work.load_articles(base_path, chapters, require_unique_titles=True,
reconcile_chapter_tags)`: run every entry, then, when reconciliation is
requested, fail with `ReconciliationError` if any global count is
non-zero. -/
def loadArticlesM (pages : PageRange Page) (chapters : Counter)
    (entries : List (String × String × String)) (reconcile : Bool) :
    Except Err LoadState :=
  match runEntries (initState pages chapters) entries with
  | .error e => .error e
  | .ok st =>
    if reconcile && chaptersNonzero st.chapters then
      .error (.reconciliation (unclaimedList st.chapters) (noTagList st.articles))
    else .ok st

/-- The per-page data `Work.load_pages` reads: uid and label from
`Pages.lst`, the page text, and whether the page is in
`whole-page-ok.lst`. -/
structure PageInput where
  uid : String
  label : String
  ocr : List Char
  proofread : Bool
deriving DecidableEq

/-- `Work.load_pages`: build each page, collect its chapter markers into
the global counter (memoising them on the page) and store the page. -/
def loadPagesM : PageRange Page × Counter → List PageInput →
    Except Err (PageRange Page × Counter)
  | acc, [] => .ok acc
  | (pages, chapters), inp :: rest =>
    match getChapters (mkPage inp.uid inp.label inp.ocr (some inp.proofread)) with
    | .error e => .error e
    | .ok (chs, pg') =>
      loadPagesM (⟨assocSet pages.entries inp.uid pg'⟩, cupdate chapters chs) rest

/-- The page/article part of `Work.from_files`: `load_pages` followed by
`load_articles` (metadata and people loading do not touch the
reconciliation state). -/
def loadWork (inputs : List PageInput) (entries : List (String × String × String))
    (reconcile : Bool) : Except Err LoadState :=
  match loadPagesM (⟨[]⟩, []) inputs with
  | .error e => .error e
  | .ok (pages, chapters) => loadArticlesM pages chapters entries reconcile

/-! ## Projections used to state concrete-run facts -/

/-- Whether a load succeeded. -/
def workOk (r : Except Err LoadState) : Bool :=
  match r with
  | .ok _ => true
  | .error _ => false

/-- The error of a failed load. -/
def workErr (r : Except Err LoadState) : Option Err :=
  match r with
  | .ok _ => none
  | .error e => some e

/-- The stored article uids, in order. -/
def workKeys (r : Except Err LoadState) : List String :=
  match r with
  | .ok st => st.articles.map Prod.fst
  | .error _ => []

/-- The stored (uid, raw title) pairs, in order. -/
def workTitles (r : Except Err LoadState) : List (String × String) :=
  match r with
  | .ok st => st.articles.map (fun p => (p.1, p.2.title))
  | .error _ => []

/-- The text of a stored page. -/
def workPageOcr (r : Except Err LoadState) (uid : String) : List Char :=
  match r with
  | .ok st =>
    match assocFind st.pages.entries uid with
    | some pg => pg.ocr
    | none => []
  | .error _ => []

/-- The chapter list of a `get_chapters` result. -/
def chaptersOf (r : Except Err (List String × Page)) : List String :=
  match r with
  | .ok (l, _) => l
  | .error _ => []

/-- The updated page of a `get_chapters` result (`p` when it failed). -/
def pageOf (p : Page) (r : Except Err (List String × Page)) : Page :=
  match r with
  | .ok (_, p') => p'
  | .error _ => p

/-! ## Well-formed page texts (used to state the repaired C5) -/

/-- A page text assembled from plain segments and chapter markers:
`chapterText t0 [(n1, t1), ..., (nk, tk)]` is
`t0 <chapter name="n1"> t1 ... <chapter name="nk"> tk`. -/
def chapterText : List Char → List (List Char × List Char) → List Char
  | t0, [] => t0
  | t0, (n, t) :: rest => t0 ++ (marker n ++ chapterText t rest)

/-! ## Concrete scenarios -/

/-- A page text that is exactly one marker named `A`. -/
def ocrA : List Char := marker "A".data

/-- Scenario B of the specification: two pages, each carrying one marker
`A` (global count 2). -/
def pagesB : List PageInput :=
  [⟨"0001", "1", ocrA, true⟩, ⟨"0002", "2", ocrA, true⟩]

/-- Scenario B: two ToC entries titled `A`, one per page. -/
def entriesB : List (String × String × String) :=
  [("a1", "A", "0001"), ("a2", "A", "0002")]

/-- Three pages whose markers are `A (1)`, `A`, `A` (so the global count
of `A` is 2 and of `A (1)` is 1). -/
def pagesD2 : List PageInput :=
  [⟨"0001", "1", marker "A (1)".data, true⟩,
   ⟨"0002", "2", ocrA, true⟩,
   ⟨"0003", "3", ocrA, true⟩]

/-- ToC entries titled `A (1)`, `A`, `A`: the second entry's
disambiguated uid collides with the stored key `A (1)` while its raw
title does not. -/
def entriesD2 : List (String × String × String) :=
  [("h1", "A (1)", "0001"), ("h2", "A", "0002"), ("h3", "A", "0003")]

/-- A one-page page store (for `parse_range` lookups). -/
def prC3 : PageRange Page := ⟨[("0001", mkPage "0001" "1" ocrA (some true))]⟩

/-- One page whose marker is `A`. -/
def pagesC3 : List PageInput := [⟨"0001", "1", ocrA, true⟩]

/-- One ToC entry titled `A` whose range names the unknown page `0002`. -/
def entriesC3 : List (String × String × String) := [("h", "A", "0002")]

/-- Scenario C of the specification: a page whose only marker is `B`. -/
def pagesC : List PageInput := [⟨"0001", "1", marker "B".data, true⟩]

/-- Scenario C: one ToC entry titled `A` on that page. -/
def entriesC : List (String × String × String) := [("h1", "A", "0001")]

/-- The page store and chapter counter after `load_pages` on Scenario C. -/
def loadedC : PageRange Page × Counter :=
  match loadPagesM (⟨[]⟩, []) pagesC with
  | .error _ => (⟨[]⟩, [])
  | .ok pc => pc

/-- The state after every Scenario C entry has been processed. -/
def stC4 : LoadState :=
  match runEntries (initState loadedC.1 loadedC.2) entriesC with
  | .error _ => initState loadedC.1 loadedC.2
  | .ok st => st

/-- A load state whose articles already hold the key `A` (Scenario D
after its first entry). -/
def stDup : LoadState :=
  { pages := ⟨[]⟩, chapters := [], disamb := [],
    articles := [("A", mkArticle "A" [] "h1" none)] }

/-- A small three-entry `PageRange`. -/
def prW : PageRange Nat := ⟨[("a", 1), ("b", 2), ("c", 3)]⟩

/-- A fresh page whose text is `x<chapter name="A">y`. -/
def cPage : Page :=
  { uid := "0001", label := "", ocr := "x".data ++ (marker "A".data ++ "y".data),
    isProofread := some false, cache := none }

/-- `cPage` after `get_chapters()` has been called once (the memoised
list is now populated). -/
def cPage1 : Page := pageOf cPage (getChapters cPage)

/-- A page carrying the marker `a` twice. -/
def p6 : Page :=
  { uid := "1", label := "", ocr := marker "a".data ++ marker "a".data,
    isProofread := some false, cache := none }

/-- A page carrying one marker `a` between plain text. -/
def pW6 : Page :=
  { uid := "1", label := "", ocr := "x".data ++ (marker "a".data ++ "y".data),
    isProofread := some false, cache := none }

/-- A page with no marker at all. -/
def pNo6 : Page :=
  { uid := "1", label := "", ocr := "plain text".data,
    isProofread := some false, cache := none }

/-- A not-yet-proofread page whose label is `Blank` (capital B). -/
def p7 : Page :=
  { uid := "1", label := "Blank", ocr := [], isProofread := some false,
    cache := none }

/-- A not-yet-proofread page whose label is `(blank)`. -/
def pB7 : Page :=
  { uid := "1", label := "(blank)", ocr := [], isProofread := some false,
    cache := none }

/-- An article whose disambiguator is the integer 0. -/
def artW : Article := mkArticle "A" [] "h" (some 0)

/-! # Theorems

First the generic toolkit about `isPfx`, `containsSub` and
`replaceFirst`, then the extraction lemmas, then the claims. -/

theorem isPfx_iff (p s : List Char) : isPfx p s = true ↔ ∃ t, s = p ++ t := by
  induction p generalizing s with
  | nil => simp [isPfx]
  | cons a as ih =>
    cases s with
    | nil => simp [isPfx]
    | cons b bs =>
      simp only [isPfx, Bool.and_eq_true, decide_eq_true_eq, ih,
        List.cons_append, List.cons.injEq]
      constructor
      · rintro ⟨rfl, t, rfl⟩
        exact ⟨t, rfl, rfl⟩
      · rintro ⟨t, rfl, rfl⟩
        exact ⟨rfl, t, rfl⟩

theorem isPfx_self_app (p t : List Char) : isPfx p (p ++ t) = true :=
  (isPfx_iff p (p ++ t)).mpr ⟨t, rfl⟩

theorem isPfx_app_same (x u v : List Char) :
    isPfx (x ++ u) (x ++ v) = isPfx u v := by
  induction x with
  | nil => rfl
  | cons c cs ih => simp [isPfx, ih]

theorem containsSub_iff (p s : List Char) :
    containsSub p s = true ↔ ∃ a b, s = a ++ p ++ b := by
  induction s with
  | nil =>
    simp only [containsSub, isPfx_iff]
    constructor
    · rintro ⟨t, ht⟩
      have hp : p = [] := by
        cases p with
        | nil => rfl
        | cons x xs => simp at ht
      exact ⟨[], [], by simp [hp]⟩
    · rintro ⟨a, b, hab⟩
      refine ⟨[], ?_⟩
      cases a <;> cases p <;> simp_all
  | cons c cs ih =>
    simp only [containsSub, Bool.or_eq_true, isPfx_iff, ih]
    constructor
    · rintro (⟨t, ht⟩ | ⟨a, b, hab⟩)
      · exact ⟨[], t, by simp [ht]⟩
      · exact ⟨c :: a, b, by simp [hab]⟩
    · rintro ⟨a, b, hab⟩
      cases a with
      | nil => exact Or.inl ⟨b, by simpa using hab⟩
      | cons x xs =>
        simp only [List.cons_append, List.cons.injEq, List.append_assoc] at hab
        exact Or.inr ⟨xs, b, by simp [hab.2]⟩

theorem replaceFirst_of_not_contains (pat rep s : List Char)
    (h : containsSub pat s = false) : replaceFirst pat rep s = s := by
  induction s with
  | nil =>
    simp only [containsSub] at h
    simp [replaceFirst, h]
  | cons c cs ih =>
    simp only [containsSub, Bool.or_eq_false_iff] at h
    simp [replaceFirst, h.1, ih h.2]

theorem replaceFirst_self_app (pat rep b : List Char) :
    replaceFirst pat rep (pat ++ b) = rep ++ b := by
  cases pat with
  | nil => cases b <;> simp [replaceFirst, isPfx]
  | cons p ps =>
    have hx2 : isPfx (p :: ps) (p :: (ps ++ b)) = true :=
      isPfx_self_app (p :: ps) b
    have hd : (p :: (ps ++ b)).drop (p :: ps).length = b :=
      List.drop_left (p :: ps) b
    simp [replaceFirst, hx2, hd]

theorem replaceFirst_decomp (pat rep s : List Char)
    (h : containsSub pat s = true) :
    ∃ a b, s = a ++ pat ++ b ∧ replaceFirst pat rep s = a ++ rep ++ b := by
  induction s with
  | nil =>
    simp only [containsSub, isPfx_iff] at h
    obtain ⟨t, ht⟩ := h
    have hp : pat = [] := by cases pat <;> simp_all
    subst hp
    exact ⟨[], [], by simp, by simp [replaceFirst, isPfx]⟩
  | cons c cs ih =>
    by_cases hp : isPfx pat (c :: cs) = true
    · obtain ⟨t, ht⟩ := (isPfx_iff _ _).mp hp
      refine ⟨[], t, by simpa using ht, ?_⟩
      rw [ht, replaceFirst_self_app]
      simp
    · have hc : containsSub pat cs = true := by
        simp only [containsSub, Bool.or_eq_true] at h
        exact h.resolve_left hp
      obtain ⟨a, b, hab, hr⟩ := ih hc
      exact ⟨c :: a, b, by simp [hab],
        by simp [replaceFirst, hp, hr]⟩

theorem containsSub_nil_pat (l : List Char) : containsSub [] l = true := by
  cases l <;> simp [containsSub, isPfx]

theorem replaceFirst_changes (pat rep s : List Char) (hne : pat ≠ rep)
    (h : containsSub pat s = true) : replaceFirst pat rep s ≠ s := by
  obtain ⟨a, b, hab, hr⟩ := replaceFirst_decomp pat rep s h
  rw [hr, hab]
  intro hEq
  rw [List.append_assoc, List.append_assoc] at hEq
  have h1 : rep ++ b = pat ++ b := List.append_cancel_left hEq
  exact hne (List.append_cancel_right h1).symm

theorem pfx_of_app_le (pat u v t : List Char) (hEq : pat ++ t = u ++ v)
    (hle : pat.length ≤ u.length) : ∃ t', u = pat ++ t' := by
  have h1 : (pat ++ t).take u.length = u := by
    rw [hEq]
    exact List.take_left u v
  rw [List.take_append_eq_append_take, List.take_of_length_le hle] at h1
  exact ⟨t.take (u.length - pat.length), h1.symm⟩

theorem replaceFirst_cons (pat rep : List Char) (c : Char) (cs : List Char) :
    replaceFirst pat rep (c :: cs) =
      if isPfx pat (c :: cs) then rep ++ (c :: cs).drop pat.length
      else c :: replaceFirst pat rep cs := rfl

theorem replaceFirst_first_occ (pat rep a b : List Char)
    (h : containsSub pat (a ++ pat.dropLast) = false) :
    replaceFirst pat rep (a ++ pat ++ b) = a ++ rep ++ b := by
  induction a with
  | nil => simpa using replaceFirst_self_app pat rep b
  | cons x a' ih =>
    have hne : pat ≠ [] := by
      intro hpn
      rw [hpn, containsSub_nil_pat] at h
      simp at h
    have hx : isPfx pat (x :: (a' ++ (pat ++ b))) = false := by
      cases hcs : isPfx pat (x :: (a' ++ (pat ++ b))) with
      | false => rfl
      | true =>
        exfalso
        obtain ⟨t, ht⟩ := (isPfx_iff _ _).mp hcs
        have hdec : (x :: (a' ++ (pat ++ b))) =
            ((x :: a') ++ pat.dropLast) ++ ([pat.getLast hne] ++ b) := by
          conv_lhs => rw [← List.dropLast_append_getLast hne]
          simp [List.append_assoc]
        have hlen : pat.length ≤ ((x :: a') ++ pat.dropLast).length := by
          have h1 : 1 ≤ pat.length := List.length_pos.mpr hne
          simp only [List.length_append, List.length_cons, List.length_dropLast]
          omega
        obtain ⟨t', ht'⟩ :=
          pfx_of_app_le pat ((x :: a') ++ pat.dropLast) ([pat.getLast hne] ++ b) t
            (ht.symm.trans hdec) hlen
        have hocc : containsSub pat ((x :: a') ++ pat.dropLast) = true := by
          rw [ht']
          exact (containsSub_iff _ _).mpr ⟨[], t', by simp⟩
        rw [hocc] at h
        simp at h
    have h' : containsSub pat (a' ++ pat.dropLast) = false := by
      simp only [List.cons_append, containsSub, Bool.or_eq_false_iff] at h
      exact h.2
    have hcons : (x :: a') ++ pat ++ b = x :: (a' ++ pat ++ b) := by
      simp
    rw [hcons, replaceFirst_cons, if_neg (by simp [hx]), ih h']
    simp

theorem replaceFirst_app_of_no_lt (pt rep t0 s : List Char) (h : '<' ∉ t0) :
    replaceFirst ('<' :: pt) rep (t0 ++ s) = t0 ++ replaceFirst ('<' :: pt) rep s := by
  induction t0 with
  | nil => simp
  | cons c t0' ih =>
    have hc : ¬('<' : Char) = c := by
      intro hh
      exact h (List.mem_cons.mpr (Or.inl hh))
    have hp : isPfx ('<' :: pt) (c :: (t0' ++ s)) = false := by
      simp [isPfx, hc]
    simp [replaceFirst, hp, ih (fun hm => h (List.mem_cons_of_mem c hm))]

theorem isPfx_name_tail : ∀ (old n s : List Char), old ≠ n → '"' ∉ old → '"' ∉ n →
    isPfx (old ++ ['"', '>']) (n ++ '"' :: '>' :: s) = false := by
  intro old
  induction old with
  | nil =>
    intro n s hne _ hn
    cases n with
    | nil => exact absurd rfl hne
    | cons c n' =>
      have hc : ¬('"' : Char) = c := by
        intro hh
        exact hn (List.mem_cons.mpr (Or.inl hh))
      simp [isPfx, hc]
  | cons a old' ih =>
    intro n s hne ho hn
    cases n with
    | nil =>
      have ha : ¬(a = '"') := by
        intro hh
        exact ho (List.mem_cons.mpr (Or.inl hh.symm))
      simp [isPfx, ha]
    | cons c n' =>
      by_cases hac : a = c
      · subst hac
        have hne' : old' ≠ n' := by
          intro hh
          exact hne (by rw [hh])
        have ho' : '"' ∉ old' := fun hm => ho (List.mem_cons_of_mem a hm)
        have hn' : '"' ∉ n' := fun hm => hn (List.mem_cons_of_mem a hm)
        simp [isPfx, ih n' s hne' ho' hn']
      · simp [isPfx, hac]

theorem isPfx_marker_marker (old n s : List Char) (hne : old ≠ n)
    (ho : '"' ∉ old) (hn : '"' ∉ n) :
    isPfx (marker old) (marker n ++ s) = false := by
  have h2 : marker n ++ s = preMark ++ (n ++ '"' :: '>' :: s) := by
    simp [marker, List.append_assoc]
  have h3 : marker old = preMark ++ (old ++ ['"', '>']) := by
    simp [marker, List.append_assoc]
  rw [h2, h3, isPfx_app_same]
  exact isPfx_name_tail old n s hne ho hn

theorem replaceFirst_marker_app (old rep t0 s : List Char) (h0 : '<' ∉ t0) :
    replaceFirst (marker old) rep (t0 ++ s) = t0 ++ replaceFirst (marker old) rep s := by
  have hm : marker old = '<' :: (preTail ++ (old ++ ['"', '>'])) := by
    simp [marker, preMark, List.append_assoc]
  have h := replaceFirst_app_of_no_lt (preTail ++ (old ++ ['"', '>'])) rep t0 s h0
  rw [← hm] at h
  exact h

theorem replaceFirst_marker_skip (old rep n s : List Char) (hne : n ≠ old)
    (ho : '"' ∉ old) (hn : '"' ∉ n) (hnl : '<' ∉ n) :
    replaceFirst (marker old) rep (marker n ++ s) =
      marker n ++ replaceFirst (marker old) rep s := by
  have h0 : isPfx (marker old) (marker n ++ s) = false :=
    isPfx_marker_marker old n s (fun hh => hne hh.symm) ho hn
  have hbody : marker n ++ s = '<' :: ((preTail ++ (n ++ ['"', '>'])) ++ s) := by
    simp [marker, preMark, List.append_assoc]
  have h0' : isPfx (marker old) ('<' :: ((preTail ++ (n ++ ['"', '>'])) ++ s)) = false := by
    rw [← hbody]
    exact h0
  have h0'' : isPfx (marker old) ('<' :: (preTail ++ (n ++ '"' :: '>' :: s))) = false := by
    simpa [List.append_assoc] using h0'
  have hnolt : '<' ∉ preTail ++ (n ++ ['"', '>']) := by
    intro hmem
    rcases List.mem_append.mp hmem with h1 | h2
    · exact absurd h1 (by decide)
    · rcases List.mem_append.mp h2 with h3 | h4
      · exact hnl h3
      · exact absurd h4 (by decide)
  calc replaceFirst (marker old) rep (marker n ++ s)
      = replaceFirst (marker old) rep ('<' :: ((preTail ++ (n ++ ['"', '>'])) ++ s)) := by
        rw [← hbody]
    _ = '<' :: replaceFirst (marker old) rep ((preTail ++ (n ++ ['"', '>'])) ++ s) := by
        rw [replaceFirst_cons, if_neg (by simp [h0''])]
    _ = '<' :: ((preTail ++ (n ++ ['"', '>'])) ++ replaceFirst (marker old) rep s) := by
        rw [replaceFirst_marker_app old rep _ s hnolt]
    _ = marker n ++ replaceFirst (marker old) rep s := by
        simp [marker, preMark, List.append_assoc]

theorem extractGo_succ (f : Nat) (c : Char) (cs : List Char) :
    extractGo (f + 1) (c :: cs) =
      if isPfx preMark (c :: cs) then
        (((c :: cs).drop preMark.length).takeWhile (fun d => d ≠ '"')) ::
          extractGo f (((c :: cs).drop preMark.length).drop
            ((((c :: cs).drop preMark.length).takeWhile (fun d => d ≠ '"')).length + 1))
      else extractGo f cs := rfl

theorem extractGo_fuel : ∀ (fuel : Nat), ∀ (s : List Char), s.length ≤ fuel →
    extractGo fuel s = extractChapters s := by
  intro fuel
  induction fuel using Nat.strong_induction_on with
  | _ fuel ih =>
    cases fuel with
    | zero =>
      intro s hs
      have hz : s = [] := List.length_eq_zero.mp (Nat.le_zero.mp hs)
      subst hz
      rfl
    | succ f =>
      intro s hs
      cases s with
      | nil => rfl
      | cons c cs =>
        have hcs : cs.length ≤ f := by
          simpa using hs
        by_cases hp : isPfx preMark (c :: cs) = true
        · have hd : (((c :: cs).drop preMark.length).drop
              ((((c :: cs).drop preMark.length).takeWhile (fun d => d ≠ '"')).length + 1)).length
                ≤ cs.length := by
            simp only [List.length_drop, List.length_cons]
            omega
          rw [extractGo_succ, if_pos hp]
          have h1 := ih f (Nat.lt_succ_self f) _ (le_trans hd hcs)
          rw [h1]
          show _ = extractChapters (c :: cs)
          have h2 : extractChapters (c :: cs) = extractGo (cs.length + 1) (c :: cs) := rfl
          rw [h2, extractGo_succ, if_pos hp,
            ih cs.length (Nat.lt_succ_of_le hcs) _ hd]
        · rw [extractGo_succ, if_neg hp]
          have h1 := ih f (Nat.lt_succ_self f) cs hcs
          rw [h1]
          have h2 : extractChapters (c :: cs) = extractGo (cs.length + 1) (c :: cs) := rfl
          rw [h2, extractGo_succ, if_neg hp,
            ih cs.length (Nat.lt_succ_of_le hcs) cs (le_refl _)]

theorem extractChapters_cons (c : Char) (cs : List Char) :
    extractChapters (c :: cs) =
      if isPfx preMark (c :: cs) then
        (((c :: cs).drop preMark.length).takeWhile (fun d => d ≠ '"')) ::
          extractChapters (((c :: cs).drop preMark.length).drop
            ((((c :: cs).drop preMark.length).takeWhile (fun d => d ≠ '"')).length + 1))
      else extractChapters cs := by
  have h1 : extractChapters (c :: cs) = extractGo (cs.length + 1) (c :: cs) := rfl
  rw [h1, extractGo_succ]
  by_cases hp : isPfx preMark (c :: cs) = true
  · rw [if_pos hp, if_pos hp]
    congr 1
    apply extractGo_fuel
    simp only [List.length_drop, List.length_cons]
    omega
  · rw [if_neg hp, if_neg hp]
    exact extractGo_fuel cs.length cs (le_refl _)

theorem extract_app_of_no_lt (t0 s : List Char) (h : '<' ∉ t0) :
    extractChapters (t0 ++ s) = extractChapters s := by
  induction t0 with
  | nil => simp
  | cons c t0' ih =>
    have hc : ¬('<' : Char) = c := by
      intro hh
      exact h (List.mem_cons.mpr (Or.inl hh))
    have hp : isPfx preMark (c :: (t0' ++ s)) = false := by
      simp [preMark, isPfx, hc]
    rw [List.cons_append, extractChapters_cons, if_neg (by simp [hp])]
    exact ih (fun hm => h (List.mem_cons_of_mem c hm))

theorem takeWhile_app_quote (n rest : List Char) (h : '"' ∉ n) :
    ((n ++ '"' :: rest).takeWhile (fun d => d ≠ '"')) = n := by
  induction n with
  | nil => simp [List.takeWhile]
  | cons c n' ih =>
    have hc : c ≠ '"' := by
      intro hh
      exact h (List.mem_cons.mpr (Or.inl hh.symm))
    rw [List.cons_append, List.takeWhile_cons_of_pos (by simp [hc]),
      ih (fun hm => h (List.mem_cons_of_mem c hm))]

theorem extract_marker_cons (n s : List Char) (h : '"' ∉ n) :
    extractChapters (marker n ++ s) = n :: extractChapters s := by
  have h1 : marker n ++ s = '<' :: (preTail ++ (n ++ '"' :: '>' :: s)) := by
    simp [marker, preMark, List.append_assoc]
  have hp : isPfx preMark ('<' :: (preTail ++ (n ++ '"' :: '>' :: s))) = true := by
    apply (isPfx_iff _ _).mpr
    exact ⟨n ++ '"' :: '>' :: s, by simp [preMark]⟩
  rw [h1, extractChapters_cons, if_pos hp]
  have hd : ('<' :: (preTail ++ (n ++ '"' :: '>' :: s))).drop preMark.length =
      n ++ '"' :: '>' :: s := by
    have h2 : '<' :: (preTail ++ (n ++ '"' :: '>' :: s)) =
        preMark ++ (n ++ '"' :: '>' :: s) := by
      simp [preMark]
    rw [h2, List.drop_left]
  rw [hd, takeWhile_app_quote n ('>' :: s) h]
  have hd2 : (n ++ '"' :: '>' :: s).drop (n.length + 1) = '>' :: s := by
    have h3 : n ++ '"' :: '>' :: s = (n ++ ['"']) ++ ('>' :: s) := by
      simp [List.append_assoc]
    have h4 : n.length + 1 = (n ++ ['"']).length := by
      simp
    rw [h3, h4, List.drop_left]
  rw [hd2]
  congr 1

theorem extract_chapterText (t0 : List Char) (l : List (List Char × List Char))
    (h0 : '<' ∉ t0) (hl : ∀ q ∈ l, '"' ∉ q.1 ∧ '<' ∉ q.2) :
    extractChapters (chapterText t0 l) = l.map Prod.fst := by
  induction l generalizing t0 with
  | nil =>
    show extractChapters t0 = []
    have h1 : (t0 : List Char) = t0 ++ [] := by simp
    rw [h1, extract_app_of_no_lt t0 [] h0]
    rfl
  | cons q rest ih =>
    obtain ⟨n, t⟩ := q
    show extractChapters (t0 ++ (marker n ++ chapterText t rest)) = _
    rw [extract_app_of_no_lt t0 _ h0,
      extract_marker_cons n _ (hl (n, t) (List.mem_cons_self _ _)).1]
    simp only [List.map_cons]
    rw [ih t ((hl (n, t) (List.mem_cons_self _ _)).2)
      (fun q hq => hl q (List.mem_cons_of_mem _ hq))]

theorem replaceFirst_chapterText :
    ∀ (l1 : List (List Char × List Char)) (t0 : List Char)
      (l2 : List (List Char × List Char)) (old new' t : List Char),
    '<' ∉ t0 →
    (∀ q ∈ l1, '"' ∉ q.1 ∧ '<' ∉ q.1 ∧ '<' ∉ q.2) →
    (∀ q ∈ l1, q.1 ≠ old) →
    '"' ∉ old →
    replaceFirst (marker old) (marker new') (chapterText t0 (l1 ++ (old, t) :: l2)) =
      chapterText t0 (l1 ++ (new', t) :: l2) := by
  intro l1
  induction l1 with
  | nil =>
    intro t0 l2 old new' t h0 _ _ _
    show replaceFirst (marker old) (marker new')
        (t0 ++ (marker old ++ chapterText t l2)) =
      t0 ++ (marker new' ++ chapterText t l2)
    rw [replaceFirst_marker_app old (marker new') t0 _ h0,
      replaceFirst_self_app]
  | cons q l1' ih =>
    intro t0 l2 old new' t h0 hl hno ho
    obtain ⟨n, tn⟩ := q
    show replaceFirst (marker old) (marker new')
        (t0 ++ (marker n ++ chapterText tn (l1' ++ (old, t) :: l2))) = _
    have hq := hl (n, tn) (List.mem_cons_self _ _)
    rw [replaceFirst_marker_app old (marker new') t0 _ h0,
      replaceFirst_marker_skip old (marker new') n _
        (hno (n, tn) (List.mem_cons_self _ _)) ho hq.1 hq.2.1,
      ih tn l2 old new' t hq.2.2
        (fun q hq2 => hl q (List.mem_cons_of_mem _ hq2))
        (fun q hq2 => hno q (List.mem_cons_of_mem _ hq2)) ho]
    rfl

theorem marker_inj (x y : List Char) (h : marker x = marker y) : x = y := by
  simp only [marker] at h
  exact List.append_cancel_left (List.append_cancel_right h)

/-- C10: an `Article` whose disambiguator is the integer 0 has
`uid = clean_title` with no suffix — the suffix is appended only for a
truthy (non-`None`, non-zero) disambiguator, so disambiguator 0 is
indistinguishable from no disambiguator at the uid interface. -/
theorem c10_uid_disambig_zero (a : Article) :
    (a.disambig = some 0 → uidOf a = cleanTitle a.title)
    ∧ (a.disambig = none → uidOf a = cleanTitle a.title)
    ∧ (∀ d : Int, a.disambig = some d → d ≠ 0 →
        uidOf a = cleanTitle a.title ++ " (" ++ toString d ++ ")") := by
  refine ⟨?_, ?_, ?_⟩
  · intro h
    simp [uidOf, h]
  · intro h
    simp [uidOf, h]
  · intro d h hd
    simp [uidOf, h, hd]

/-- C10 witness: a concrete article with disambiguator 0. -/
theorem c10_witness : artW.disambig = some 0 ∧ uidOf artW = cleanTitle artW.title :=
  ⟨rfl, (c10_uid_disambig_zero artW).1 rfl⟩

/-- C7 counterexample: the label comparison is case-sensitive, so a page
labelled `Blank` is NOT treated as blank — `set_blank` leaves it
untouched instead of forcing the unknown proofread sentinel. -/
theorem c7_counterexample :
    p7.label = "Blank" ∧ setBlank none p7 = p7
    ∧ (setBlank none p7).isProofread = some false := by
  refine ⟨rfl, by decide, by decide⟩

/-- C7 (amended): for every `Page` whose label is exactly one of the
`BLANK_LABELS` (`'blank'`, `'(blank)'`, case-sensitively),
`set_blank(default_label)` forces the proofread status to the unknown
sentinel and rewrites the label to the effective default blank marker;
`set_blank` is idempotent. -/
theorem c7_set_blank (p : Page) (d : Option String) :
    (p.label ∈ blankLabels →
      setBlank d p = { p with isProofread := none, label := canonicalBlank d })
    ∧ setBlank d (setBlank d p) = setBlank d p := by
  constructor
  · intro h
    simp [setBlank, h]
  · by_cases h : p.label ∈ blankLabels
    · simp only [setBlank, h, if_pos]
      by_cases h2 : canonicalBlank d ∈ blankLabels <;> simp [h2]
    · simp [setBlank, h]

/-- C7 witness: the page labelled `(blank)`. -/
theorem c7_witness :
    pB7.label ∈ blankLabels
    ∧ setBlank none pB7 = { pB7 with isProofread := none, label := canonicalBlank none }
    ∧ setBlank none (setBlank none pB7) = setBlank none pB7 :=
  ⟨by decide, (c7_set_blank pB7 none).1 (by decide), (c7_set_blank pB7 none).2⟩

/-- C6 counterexample: `rename_chapter` is NOT idempotent — on a page
carrying the old marker twice, the second identical call rewrites the
second occurrence as well. -/
theorem c6_counterexample :
    renameChapter (renameChapter p6 "a" "b") "a" "b" ≠ renameChapter p6 "a" "b" := by
  decide

/-- C6 (amended): `rename_chapter(old, new)` rewrites exactly the first
literal occurrence of `<chapter name="old">`, is a no-op when no
occurrence exists, and (for `old ≠ new`) a repeated identical call is a
no-op exactly when the once-rewritten text no longer contains the old
marker — otherwise it rewrites the next remaining occurrence. -/
theorem c6_rename_chapter (p : Page) (oldName newName : String) :
    (containsSub (marker oldName.data) p.ocr = false →
      renameChapter p oldName newName = p)
    ∧ (∀ a b, p.ocr = a ++ marker oldName.data ++ b →
        containsSub (marker oldName.data) (a ++ (marker oldName.data).dropLast) = false →
        (renameChapter p oldName newName).ocr = a ++ marker newName.data ++ b)
    ∧ (oldName ≠ newName →
        (renameChapter (renameChapter p oldName newName) oldName newName =
            renameChapter p oldName newName
          ↔ containsSub (marker oldName.data)
              (renameChapter p oldName newName).ocr = false)) := by
  refine ⟨?_, ?_, ?_⟩
  · intro h
    simp [renameChapter, replaceFirst_of_not_contains _ _ _ h]
  · intro a b hab hfo
    simp only [renameChapter]
    rw [hab, replaceFirst_first_occ _ _ _ _ hfo]
  · intro hne
    constructor
    · intro h
      have hocr := congrArg Page.ocr h
      simp only [renameChapter] at hocr
      cases hcc : containsSub (marker oldName.data)
          (renameChapter p oldName newName).ocr with
      | false => rfl
      | true =>
        exfalso
        have hmne : marker oldName.data ≠ marker newName.data := by
          intro hmm
          have hdata := marker_inj _ _ hmm
          exact hne (congrArg String.mk hdata)
        exact replaceFirst_changes _ _ _ hmne hcc hocr
    · intro h
      simp only [renameChapter] at h
      simp [renameChapter, replaceFirst_of_not_contains _ _ _ h]

/-- C6 witness: one marker between plain text is rewritten in place; a
page without the marker is untouched. -/
theorem c6_witness :
    (renameChapter pW6 "a" "b").ocr = "x".data ++ marker "b".data ++ "y".data
    ∧ renameChapter pNo6 "a" "b" = pNo6 := by
  constructor
  · exact (c6_rename_chapter pW6 "a" "b").2.1 "x".data "y".data (by decide) (by decide)
  · exact (c6_rename_chapter pNo6 "a" "b").1 (by decide)

/-- C3: `parse_range` uses `self.pages.get(entry)` for a single-page
token, so an unknown page uid silently becomes a `None` segment instead
of failing with a lookup error; the load then dies later with an
`AttributeError` on `None`.  (A blank-token-only expression does yield
zero segments.) -/
theorem c3_eval :
    parseRange prC3 "0002" = Except.ok [none]
    ∧ parseRange prC3 " " = Except.ok []
    ∧ workErr (loadWork pagesC3 entriesC3 true) = some Err.attributeNone := by
  refine ⟨by decide, by decide, by decide⟩

/-- C1 counterexample: on Scenario B the FIRST duplicated entry already
receives uid `A (1)` (not the bare `A`) and its page's marker IS
rewritten — the per-title counter starts at one, not zero. -/
theorem c1_counterexample :
    workKeys (loadWork pagesB entriesB true) = ["A (1)", "A (2)"]
    ∧ "A" ∉ workKeys (loadWork pagesB entriesB true)
    ∧ workPageOcr (loadWork pagesB entriesB true) "0001" ≠ ocrA := by
  refine ⟨by decide, by decide, by decide⟩

/-- C1 (amended): the per-title running counter starts at one: in
Scenario B the first entry receives uid `A (1)` and its page's marker is
rewritten from `A` to `A (1)`, the second receives `A (2)` with its
marker rewritten likewise, and reconciliation succeeds. -/
theorem c1_disambiguation_counter :
    workOk (loadWork pagesB entriesB true) = true
    ∧ workKeys (loadWork pagesB entriesB true) = ["A (1)", "A (2)"]
    ∧ workPageOcr (loadWork pagesB entriesB true) "0001" = marker "A (1)".data
    ∧ workPageOcr (loadWork pagesB entriesB true) "0002" = marker "A (2)".data := by
  refine ⟨by decide, by decide, by decide, by decide⟩

/-- C2 counterexample: three ToC entries (`A (1)`, `A`, `A`) load
without any error into only two stored articles — the second entry's
disambiguated uid `A (1)` collides with the finalized key `A (1)` but
its raw title `A` does not, so the first article is silently
overwritten. -/
theorem c2_counterexample :
    entriesD2.length = 3
    ∧ workOk (loadWork pagesD2 entriesD2 true) = true
    ∧ workTitles (loadWork pagesD2 entriesD2 true) =
        [("A (1)", "A"), ("A (2)", "A")] := by
  refine ⟨by decide, by decide, by decide⟩

theorem listGet?_take {β : Type} (l : List β) (n j : Nat) :
    (l.take n).get? j = if j < n then l.get? j else none := by
  induction l generalizing n j with
  | nil => cases n <;> cases j <;> simp
  | cons x xs ih =>
    cases n with
    | zero => simp
    | succ n' =>
      cases j with
      | zero => simp
      | succ j' =>
        simp only [List.take, List.get?]
        rw [ih n' j']
        by_cases hj : j' < n'
        · rw [if_pos hj, if_pos (by omega)]
        · rw [if_neg hj, if_neg (by omega)]

theorem listGet?_drop {β : Type} (l : List β) (n j : Nat) :
    (l.drop n).get? j = l.get? (n + j) := by
  induction l generalizing n with
  | nil => cases n <;> simp
  | cons x xs ih =>
    cases n with
    | zero => simp
    | succ n' =>
      simp only [List.drop]
      rw [ih n']
      have hn : n' + 1 + j = n' + j + 1 := by omega
      rw [hn, List.get?_cons_succ]

/-- C8: with both keys present, `get_range(first, last, inclusive)`
returns exactly the positional slice of the insertion-ordered entries
over `[index(first), index(last) + inclusive)`, element by element. -/
theorem c8_get_range_slice {α : Type} (pr : PageRange α) (f l : String) (i1 i2 : Nat)
    (h1 : pr.index1 f = .ok i1) (h2 : pr.index1 l = .ok i2) (hle : i1 ≤ i2) :
    pr.getRange f l true = .ok ⟨(pr.entries.drop i1).take (i2 + 1 - i1)⟩
    ∧ pr.getRange f l false = .ok ⟨(pr.entries.drop i1).take (i2 - i1)⟩
    ∧ ∀ j : Nat, ((pr.entries.drop i1).take (i2 + 1 - i1)).get? j =
        if i1 + j < i2 + 1 then pr.entries.get? (i1 + j) else none := by
  refine ⟨?_, ?_, ?_⟩
  · simp [PageRange.getRange, h1, h2, PageRange.slice]
  · simp [PageRange.getRange, h1, h2, PageRange.slice]
  · intro j
    rw [listGet?_take, listGet?_drop]
    by_cases hj : j < i2 + 1 - i1
    · rw [if_pos hj, if_pos (by omega)]
    · rw [if_neg hj, if_neg (by omega)]

/-- C8 witness: a three-entry range sliced inclusively and
exclusively. -/
theorem c8_witness :
    prW.getRange "a" "b" true = .ok ⟨[("a", 1), ("b", 2)]⟩
    ∧ prW.getRange "a" "b" false = .ok ⟨[("a", 1)]⟩ := by
  have h := c8_get_range_slice prW "a" "b" 0 1 rfl rfl (by decide)
  exact ⟨h.1, h.2.1⟩

theorem keyIdx_get (l : List String) (hnd : l.Nodup) (i : Fin l.length) :
    keyIdx (l.get i) l = some i.val := by
  induction l with
  | nil => exact absurd i.isLt (by simp)
  | cons x xs ih =>
    rcases i with ⟨iv, hlt⟩
    cases iv with
    | zero => simp [keyIdx]
    | succ j =>
      have hj : j < xs.length := by simpa using hlt
      have hget : (x :: xs).get ⟨j + 1, hlt⟩ = xs.get ⟨j, hj⟩ := rfl
      have hmem : xs.get ⟨j, hj⟩ ∈ xs := List.get_mem xs j hj
      have hx : ¬(x = (x :: xs).get ⟨j + 1, hlt⟩) := by
        rw [hget]
        intro hEq
        exact (List.nodup_cons.mp hnd).1 (hEq ▸ hmem)
      simp only [keyIdx, if_neg hx]
      rw [hget, ih (List.nodup_cons.mp hnd).2 ⟨j, hj⟩]
      rfl

theorem keyIdx_none_iff (k : String) (l : List String) :
    keyIdx k l = none ↔ k ∉ l := by
  induction l with
  | nil => simp [keyIdx]
  | cons x xs ih =>
    by_cases hx : x = k
    · simp [keyIdx, hx]
    · simp only [keyIdx, if_neg hx, Option.map_eq_none', ih, List.mem_cons]
      constructor
      · intro h hmem
        rcases hmem with h1 | h2
        · exact hx h1.symm
        · exact h h2
      · intro h
        exact fun hm => h (Or.inr hm)

theorem mapExcept_index1_map {α : Type} (pr : PageRange α) (hnd : pr.keys.Nodup) :
    ∀ (fs : List (Fin pr.keys.length)),
      mapExcept pr.index1 (fs.map (fun i => pr.keys.get i)) =
        .ok (fs.map (fun i => i.val)) := by
  intro fs
  induction fs with
  | nil => rfl
  | cons i fs' ih =>
    have h1 : pr.index1 (pr.keys.get i) = .ok i.val := by
      have hki := keyIdx_get pr.keys hnd i
      simp only [List.get_eq_getElem] at hki
      simp [PageRange.index1, hki]
    simp only [List.get_eq_getElem] at h1 ih ⊢
    simp [mapExcept, h1, ih]

theorem mapExcept_index1_err {α : Type} (pr : PageRange α) :
    ∀ (ks : List String), (∃ k ∈ ks, k ∉ pr.keys) →
      ∃ k', k' ∈ ks ∧ k' ∉ pr.keys ∧
        mapExcept pr.index1 ks = .error (.notInList k') := by
  intro ks
  induction ks with
  | nil =>
    rintro ⟨k, hk, _⟩
    exact absurd hk (by simp)
  | cons k ks' ih =>
    intro hex
    by_cases hk : k ∈ pr.keys
    · obtain ⟨k0, hk0m, hk0n⟩ := hex
      have hk0' : k0 ∈ ks' := by
        rcases List.mem_cons.mp hk0m with h1 | h2
        · exact absurd (by rw [h1]; exact hk) hk0n
        · exact h2
      obtain ⟨k', h1, h2, h3⟩ := ih ⟨k0, hk0', hk0n⟩
      have hki : ∃ i, keyIdx k pr.keys = some i := by
        cases hkk : keyIdx k pr.keys with
        | none => exact absurd hk ((keyIdx_none_iff _ _).mp hkk)
        | some i => exact ⟨i, rfl⟩
      obtain ⟨i, hi⟩ := hki
      refine ⟨k', List.mem_cons_of_mem k h1, h2, ?_⟩
      simp [mapExcept, PageRange.index1, hi, h3]
    · refine ⟨k, List.mem_cons_self k ks', hk, ?_⟩
      have hn : keyIdx k pr.keys = none := (keyIdx_none_iff _ _).mpr hk
      simp [mapExcept, PageRange.index1, hn]

/-- C9: for a `PageRange` with unique keys, `index` returns the 0-based
insertion position of one key (`one`), the list of positions for several
keys (`many`), and fails with the key-not-found `ValueError` as soon as
any requested key is absent. -/
theorem c9_index_positions {α : Type} (pr : PageRange α) (hnd : pr.keys.Nodup) :
    (∀ i : Fin pr.keys.length, pr.index [pr.keys.get i] = .ok (.one i.val))
    ∧ (∀ fs : List (Fin pr.keys.length), 2 ≤ fs.length →
        pr.index (fs.map (fun i => pr.keys.get i)) =
          .ok (.many (fs.map (fun i => i.val))))
    ∧ (∀ ks : List String, (∃ k ∈ ks, k ∉ pr.keys) →
        ∃ k', k' ∈ ks ∧ k' ∉ pr.keys ∧ pr.index ks = .error (.notInList k')) := by
  refine ⟨?_, ?_, ?_⟩
  · intro i
    have hki := keyIdx_get pr.keys hnd i
    simp only [List.get_eq_getElem] at hki
    simp [PageRange.index, PageRange.index1, hki, Except.map]
  · intro fs h2
    match fs, h2 with
    | i :: j :: rest, _ =>
      have hme := mapExcept_index1_map pr hnd (i :: j :: rest)
      simp only [List.map_cons, List.get_eq_getElem] at hme ⊢
      simp [PageRange.index, hme, Except.map]
  · intro ks hex
    cases ks with
    | nil =>
      obtain ⟨k, hk, _⟩ := hex
      exact absurd hk (by simp)
    | cons k1 ks' =>
      cases ks' with
      | nil =>
        obtain ⟨k, hk, hkn⟩ := hex
        have hk1 : k = k1 := by simpa using hk
        subst hk1
        have hn : keyIdx k pr.keys = none := (keyIdx_none_iff _ _).mpr hkn
        exact ⟨k, by simp, hkn,
          by simp [PageRange.index, PageRange.index1, hn, Except.map]⟩
      | cons k2 ks'' =>
        obtain ⟨k', h1, h2, h3⟩ := mapExcept_index1_err pr (k1 :: k2 :: ks'') hex
        exact ⟨k', h1, h2, by simp [PageRange.index, h3, Except.map]⟩

/-- C9 witness: concrete single, multiple and failing lookups. -/
theorem c9_witness :
    prW.index ["b"] = .ok (.one 1)
    ∧ prW.index ["c", "a"] = .ok (.many [2, 0])
    ∧ ∃ k', k' ∈ ["zzz", "a"] ∧ k' ∉ prW.keys
        ∧ prW.index ["zzz", "a"] = .error (.notInList k') := by
  have hnd : prW.keys.Nodup := by decide
  refine ⟨?_, ?_, ?_⟩
  · exact (c9_index_positions prW hnd).1 ⟨1, by decide⟩
  · exact (c9_index_positions prW hnd).2.1 [⟨2, by decide⟩, ⟨0, by decide⟩] (by decide)
  · exact (c9_index_positions prW hnd).2.2 ["zzz", "a"] ⟨"zzz", by decide, by decide⟩

theorem mem_insertByCount (x y : String × Int) (l : List (String × Int)) :
    y ∈ insertByCount x l ↔ y = x ∨ y ∈ l := by
  induction l with
  | nil => simp [insertByCount]
  | cons z zs ih =>
    simp only [insertByCount]
    by_cases h : z.2 ≤ x.2
    · simp [h, List.mem_cons]
    · simp only [if_neg h, List.mem_cons, ih]
      tauto

theorem mem_mostCommon (c : Counter) (x : String × Int) :
    x ∈ mostCommon c ↔ x ∈ c := by
  induction c with
  | nil => simp [mostCommon]
  | cons y ys ih => simp [mostCommon, mem_insertByCount, ih]

theorem chaptersNonzero_iff (c : Counter) :
    chaptersNonzero c = true ↔ ∃ kc ∈ c, kc.2 ≠ 0 := by
  simp [chaptersNonzero, List.any_eq_true]

/-- C4: with reconciliation requested and every ToC entry processed,
`load_articles` raises `ReconciliationError` exactly when some marker's
remaining global count is non-zero; the error reports every marker with
a non-zero remaining count together with that count, and every stored
article whose `no_chapter_tag` is set with its clean title and first
page or page-range. -/
theorem c4_reconciliation (pages : PageRange Page) (chapters : Counter)
    (entries : List (String × String × String)) (st : LoadState)
    (h : runEntries (initState pages chapters) entries = .ok st) :
    (loadArticlesM pages chapters entries true =
        .error (.reconciliation (unclaimedList st.chapters) (noTagList st.articles))
      ↔ ∃ kc ∈ st.chapters, kc.2 ≠ 0)
    ∧ (loadArticlesM pages chapters entries true = .ok st
      ↔ ∀ kc ∈ st.chapters, kc.2 = 0)
    ∧ (∀ kc ∈ st.chapters, kc.2 ≠ 0 → fmtUnclaimed kc ∈ unclaimedList st.chapters)
    ∧ (∀ ka ∈ st.articles, ka.2.noChapterTag = some true →
        fmtNoTag ka.2 ∈ noTagList st.articles) := by
  have hforall : ¬(∃ kc ∈ st.chapters, kc.2 ≠ 0) ↔ ∀ kc ∈ st.chapters, kc.2 = 0 := by
    push_neg
    rfl
  refine ⟨?_, ?_, ?_, ?_⟩
  · by_cases hnz : chaptersNonzero st.chapters = true
    · have hErr : loadArticlesM pages chapters entries true =
          .error (.reconciliation (unclaimedList st.chapters) (noTagList st.articles)) := by
        simp [loadArticlesM, h, hnz]
      rw [hErr]
      exact iff_of_true rfl ((chaptersNonzero_iff _).mp hnz)
    · have hOk : loadArticlesM pages chapters entries true = .ok st := by
        simp [loadArticlesM, h, hnz]
      rw [hOk]
      exact iff_of_false (by simp) (fun hx => hnz ((chaptersNonzero_iff _).mpr hx))
  · by_cases hnz : chaptersNonzero st.chapters = true
    · have hErr : loadArticlesM pages chapters entries true =
          .error (.reconciliation (unclaimedList st.chapters) (noTagList st.articles)) := by
        simp [loadArticlesM, h, hnz]
      rw [hErr]
      refine iff_of_false (by simp) ?_
      intro hall
      obtain ⟨kc, hkc, hne⟩ := (chaptersNonzero_iff st.chapters).mp hnz
      exact hne (hall kc hkc)
    · have hOk : loadArticlesM pages chapters entries true = .ok st := by
        simp [loadArticlesM, h, hnz]
      rw [hOk]
      refine iff_of_true rfl ?_
      exact hforall.mp (fun hx => hnz ((chaptersNonzero_iff _).mpr hx))
  · intro kc hm hne
    exact List.mem_map_of_mem _
      (List.mem_filter.mpr ⟨(mem_mostCommon _ _).mpr hm, by simp [hne]⟩)
  · intro ka hm hflag
    exact List.mem_map_of_mem _ (List.mem_filter.mpr ⟨hm, by simp [hflag]⟩)

/-- C4 witness: Scenario C (a page whose only marker is `B`, one ToC
entry titled `A`) fails with a `ReconciliationError` reporting `B`
unclaimed once and article `A` as untagged. -/
theorem c4_witness :
    loadArticlesM loadedC.1 loadedC.2 entriesC true =
        .error (.reconciliation (unclaimedList stC4.chapters) (noTagList stC4.articles))
    ∧ unclaimedList stC4.chapters = ["B: 1 time(s)"]
    ∧ noTagList stC4.articles = ["A: page(s) 0001"] := by
  have h := c4_reconciliation loadedC.1 loadedC.2 entriesC stC4 rfl
  exact ⟨h.1.mpr (by decide), by decide, by decide⟩

theorem firstSegPage_err (ps : List (Option Entry)) (e : Err)
    (h : firstSegPage ps = .error e) : e = .indexError := by
  cases ps with
  | nil =>
    simp [firstSegPage] at h
    exact h.symm
  | cons hd tl =>
    cases hd with
    | none => simp [firstSegPage] at h
    | some en =>
      cases en with
      | single u => simp [firstSegPage] at h
      | range us =>
        cases us with
        | nil => simp [firstSegPage] at h
        | cons u us' => simp [firstSegPage] at h

theorem getChapters_err (p : Page) (e : Err) (h : getChapters p = .error e) :
    e = .blankChapter p.uid p.label := by
  unfold getChapters at h
  cases hpc : p.cache with
  | some l =>
    rw [hpc] at h
    simp at h
  | none =>
    rw [hpc] at h
    by_cases ha : ((extractChapters p.ocr).map (fun n => String.mk n)).any
        (fun s => s = "") = true
    · rw [if_pos ha] at h
      simp at h
      exact h.symm
    · rw [if_neg ha] at h
      simp at h

theorem stepDisamb_err (st : LoadState) (t h0 : String) (pl : List (Option Entry))
    (e : Err) (s : String) (he : stepDisamb st t h0 pl = .error e) :
    e ≠ .disambiguation s := by
  unfold stepDisamb at he
  by_cases hc : chas st.disamb t = true
  · rw [if_pos hc] at he
    cases hfp : firstSegPage (mkArticle t pl h0 (some (cget st.disamb t))).pages with
    | error e' =>
      rw [hfp] at he
      simp at he
      rw [← he, firstSegPage_err _ _ hfp]
      simp
    | ok o =>
      rw [hfp] at he
      cases o with
      | none =>
        simp at he
        rw [← he]
        simp
      | some u =>
        simp only [] at he
        cases hfind : assocFind st.pages.entries u with
        | none =>
          rw [hfind] at he
          simp at he
          rw [← he]
          simp
        | some pg =>
          rw [hfind] at he
          simp at he
  · rw [if_neg hc] at he
    simp at he

theorem stepTag_err (st : LoadState) (t : String) (a : Article)
    (e : Err) (s : String) (he : stepTag st t a = .error e) :
    e ≠ .disambiguation s := by
  unfold stepTag at he
  by_cases hh : isTocHeader a = true
  · rw [if_pos hh] at he
    simp at he
  · rw [if_neg hh] at he
    cases hfp : firstSegPage a.pages with
    | error e' =>
      rw [hfp] at he
      simp at he
      rw [← he, firstSegPage_err _ _ hfp]
      simp
    | ok o =>
      rw [hfp] at he
      cases o with
      | none =>
        simp at he
        rw [← he]
        simp
      | some u =>
        simp only [] at he
        cases hfind : assocFind st.pages.entries u with
        | none =>
          rw [hfind] at he
          simp at he
          rw [← he]
          simp
        | some pg =>
          rw [hfind] at he
          simp only [Option.some.injEq] at he
          cases hgc : getChapters pg with
          | error e' =>
            rw [hgc] at he
            simp at he
            rw [← he, getChapters_err _ _ hgc]
            simp
          | ok pc =>
            obtain ⟨chs, pg'⟩ := pc
            rw [hgc] at he
            by_cases hmem : t ∈ chs
            · simp [hmem] at he
            · simp [hmem] at he

/-- C2 (amended): the duplicate check of `load_articles` compares the
entry's RAW TITLE against the finalized uid keys, before disambiguation:
an entry fails with `DisambiguationError` exactly when its raw title is
already a key of the articles collection.  (An entry whose disambiguated
uid collides with an existing key while its raw title does not is stored
with `self.articles[uid] = article`, silently overwriting — see the
counterexample.) -/
theorem c2_duplicate_check (st : LoadState) (h0 t r : String)
    (pl : List (Option Entry)) (hp : parseRange st.pages r = .ok pl) :
    loadArticleEntry st h0 t r = .error (.disambiguation t)
      ↔ assocHas st.articles t = true := by
  simp only [loadArticleEntry, hp]
  by_cases hA : assocHas st.articles t = true
  · rw [if_pos hA]
    exact iff_of_true rfl hA
  · rw [if_neg hA]
    refine iff_of_false ?_ hA
    intro h
    cases hsd : stepDisamb st t h0 pl with
    | error e =>
      rw [hsd] at h
      simp at h
      exact stepDisamb_err st t h0 pl e t hsd h
    | ok p1 =>
      obtain ⟨st1, a1⟩ := p1
      rw [hsd] at h
      simp only [] at h
      cases hst : stepTag st1 t a1 with
      | error e =>
        rw [hst] at h
        simp at h
        exact stepTag_err st1 t a1 e t hst h
      | ok p2 =>
        obtain ⟨st2, a2⟩ := p2
        rw [hst] at h
        simp at h

/-- C2 witness: a state already holding the key `A` (Scenario D after
its first entry) rejects a second entry titled `A` with
`DisambiguationError`. -/
theorem c2_witness :
    parseRange stDup.pages "" = .ok []
    ∧ loadArticleEntry stDup "h2" "A" "" = .error (.disambiguation "A") := by
  have hp : parseRange stDup.pages "" = .ok [] := by decide
  exact ⟨hp, (c2_duplicate_check stDup "h2" "A" "" [] hp).mpr (by decide)⟩

theorem stringMk_eq_empty_iff (n : List Char) : String.mk n = "" ↔ n = [] := by
  constructor
  · intro h
    have h2 := congrArg String.data h
    simpa using h2
  · intro h
    rw [h]

theorem any_empty_false (L : List (List Char)) (h : ∀ n ∈ L, n ≠ []) :
    ((L.map (fun n => String.mk n)).any (fun s => s = "")) = false := by
  induction L with
  | nil => rfl
  | cons n L' ih =>
    simp only [List.map_cons, List.any_cons, Bool.or_eq_false_iff]
    constructor
    · simp [stringMk_eq_empty_iff, h n (List.mem_cons_self n L')]
    · exact ih (fun m hm => h m (List.mem_cons_of_mem n hm))

theorem getChapters_chapterText (uid label : String) (pf : Option Bool)
    (t0 : List Char) (L : List (List Char × List Char))
    (h0 : '<' ∉ t0)
    (hL : ∀ q ∈ L, '"' ∉ q.1 ∧ '<' ∉ q.2)
    (hne : ∀ q ∈ L, q.1 ≠ []) :
    getChapters ⟨uid, label, chapterText t0 L, pf, none⟩ =
      .ok (L.map (fun q => String.mk q.1),
        ⟨uid, label, chapterText t0 L, pf,
          some (L.map (fun q => String.mk q.1))⟩) := by
  have hext : extractChapters (chapterText t0 L) = L.map Prod.fst :=
    extract_chapterText t0 L h0 hL
  have hany : (((chapterText t0 L |> extractChapters).map
      (fun n => String.mk n)).any (fun s => s = "")) = false := by
    rw [hext]
    apply any_empty_false
    intro n hn
    obtain ⟨q, hq, rfl⟩ := List.mem_map.mp hn
    exact hne q hq
  simp only [getChapters]
  rw [if_neg (by simp [hany]), hext, List.map_map]
  simp [Function.comp]

/-- C5 (amended): provided `get_chapters()` has NOT yet been memoised on
the page, and the text is well-formed (chapter markers cleanly
delimited: plain segments free of `<`, marker names free of `"` and `<`
and nonempty), `rename_chapter(old, new)` followed by `get_chapters()`
returns the page's prior marker list with exactly the first occurrence
of `old` replaced by `new` and all other markers unchanged.  When
`get_chapters()` was already called before the rename, the memoised
stale list is returned instead — see the counterexample. -/
theorem c5_rename_then_get (uid label : String) (pf : Option Bool)
    (t0 t : List Char) (l1 l2 : List (List Char × List Char)) (old new' : String)
    (h0 : '<' ∉ t0)
    (hl : ∀ q ∈ l1 ++ (old.data, t) :: l2,
      '"' ∉ q.1 ∧ '<' ∉ q.1 ∧ '<' ∉ q.2 ∧ q.1 ≠ [])
    (hno : ∀ q ∈ l1, q.1 ≠ old.data)
    (hq : '"' ∉ new'.data) (hnn : new'.data ≠ []) :
    getChapters ⟨uid, label, chapterText t0 (l1 ++ (old.data, t) :: l2), pf, none⟩ =
      .ok ((l1 ++ (old.data, t) :: l2).map (fun q => String.mk q.1),
        ⟨uid, label, chapterText t0 (l1 ++ (old.data, t) :: l2), pf,
          some ((l1 ++ (old.data, t) :: l2).map (fun q => String.mk q.1))⟩)
    ∧ getChapters (renameChapter
        ⟨uid, label, chapterText t0 (l1 ++ (old.data, t) :: l2), pf, none⟩ old new') =
      .ok ((l1 ++ (new'.data, t) :: l2).map (fun q => String.mk q.1),
        ⟨uid, label, chapterText t0 (l1 ++ (new'.data, t) :: l2), pf,
          some ((l1 ++ (new'.data, t) :: l2).map (fun q => String.mk q.1))⟩) := by
  have hmemold : (old.data, t) ∈ l1 ++ (old.data, t) :: l2 :=
    List.mem_append.mpr (Or.inr (List.mem_cons_self _ _))
  have holdq : '"' ∉ old.data := (hl _ hmemold).1
  have htlt2 : '<' ∉ t := (hl _ hmemold).2.2.1
  constructor
  · apply getChapters_chapterText uid label pf t0 _ h0
    · intro q hqm
      exact ⟨(hl q hqm).1, (hl q hqm).2.2.1⟩
    · intro q hqm
      exact (hl q hqm).2.2.2
  · have hrw : replaceFirst (marker old.data) (marker new'.data)
        (chapterText t0 (l1 ++ (old.data, t) :: l2)) =
        chapterText t0 (l1 ++ (new'.data, t) :: l2) := by
      apply replaceFirst_chapterText l1 t0 l2 old.data new'.data t h0
      · intro q hqm
        have h3 := hl q (List.mem_append.mpr (Or.inl hqm))
        exact ⟨h3.1, h3.2.1, h3.2.2.1⟩
      · exact hno
      · exact holdq
    have hpage : renameChapter
        ⟨uid, label, chapterText t0 (l1 ++ (old.data, t) :: l2), pf, none⟩ old new' =
        ⟨uid, label, chapterText t0 (l1 ++ (new'.data, t) :: l2), pf, none⟩ := by
      simp [renameChapter, hrw]
    rw [hpage]
    apply getChapters_chapterText uid label pf t0 _ h0
    · intro q hqm
      rcases List.mem_append.mp hqm with h1 | h2
      · exact ⟨(hl q (List.mem_append.mpr (Or.inl h1))).1,
          (hl q (List.mem_append.mpr (Or.inl h1))).2.2.1⟩
      · rcases List.mem_cons.mp h2 with h3 | h4
        · subst h3
          exact ⟨hq, htlt2⟩
        · exact ⟨(hl q (List.mem_append.mpr (Or.inr (List.mem_cons_of_mem _ h4)))).1,
            (hl q (List.mem_append.mpr (Or.inr (List.mem_cons_of_mem _ h4)))).2.2.1⟩
    · intro q hqm
      rcases List.mem_append.mp hqm with h1 | h2
      · exact (hl q (List.mem_append.mpr (Or.inl h1))).2.2.2
      · rcases List.mem_cons.mp h2 with h3 | h4
        · subst h3
          exact hnn
        · exact (hl q (List.mem_append.mpr (Or.inr (List.mem_cons_of_mem _ h4)))).2.2.2

/-- C5 counterexample: once `get_chapters()` has been called, the list
is memoised — after `rename_chapter('A', 'B')` the text really changes
but `get_chapters()` still returns the stale `['A']`, not the renamed
list the claim promises. -/
theorem c5_counterexample :
    chaptersOf (getChapters cPage) = ["A"]
    ∧ (renameChapter cPage1 "A" "B").ocr ≠ cPage1.ocr
    ∧ chaptersOf (getChapters (renameChapter cPage1 "A" "B")) = ["A"]
    ∧ "B" ∉ chaptersOf (getChapters (renameChapter cPage1 "A" "B")) := by
  refine ⟨by decide, by decide, by decide, by decide⟩

/-- C5 witness: a fresh two-marker page (`A` then `B`): renaming `A` to
`C` and then extracting yields `[C, B]` with the text rewritten. -/
theorem c5_witness :
    getChapters (renameChapter
        ⟨"0001", "", chapterText "x".data [("A".data, "y".data), ("B".data, "z".data)],
          some false, none⟩ "A" "C") =
      .ok (["C", "B"],
        ⟨"0001", "", chapterText "x".data [("C".data, "y".data), ("B".data, "z".data)],
          some false, some ["C", "B"]⟩) := by
  have h := c5_rename_then_get "0001" "" (some false) "x".data "y".data []
    [("B".data, "z".data)] "A" "C" (by decide) (by decide) (by decide)
    (by decide) (by decide)
  exact h.2
